import Mathlib

/-!
# Verification of the cli-stock streaming core

Shallow embedding of the cli-stock repository (Effect-TS) in Lean 4.

Modelling conventions:
* JavaScript `number` arithmetic is modelled exactly over `ℚ`; float rounding
  is out of scope.  Where finiteness / NaN of a JS number is itself the point
  (the `Trade` validation schemas) an explicit `JSNumber` type with `posInf`,
  `negInf` and `nan` constructors is used.
* `Array.prototype.slice(-n)` (keep the last `n` elements, the whole array for
  `n = 0`) is modelled by `jsSliceLast`.
* The `Infinity` / `-Infinity` sentinels initialising the running `min`/`max`
  fields of `Stats` are modelled by `Option ℚ` (`none` = no data yet); no claim
  reads these fields.
* Effect streams are modelled as lists; the stateful
  `Stream.mapAccum`/`Stream.filterMap` pipeline of the indicators is modelled
  by `mapAccumEmit`.
* `DateTime.unsafeNow()` (an ambient wall clock) is threaded explicitly as a
  `now` parameter where the code calls it; no claim depends on its value.
-/

/-- JS `arr.slice(-n)`: keeps the last `n` elements of the array.  JS gives the
whole array for `n = 0` (`slice(-0)` = `slice(0)`); for `n ≥ 1` the result is
the suffix of the last `min n l.length` elements, written here as
`(l.reverse.take n).reverse`. -/
def jsSliceLast (n : ℕ) (l : List α) : List α :=
  if n = 0 then l else (l.reverse.take n).reverse

/-- `Stream.mapAccum` immediately followed by `Stream.filterMap` dropping
`none`s: a stateful scan that emits zero or one output per input. -/
def mapAccumEmit (f : σ → τ → σ × Option ω) : σ → List τ → List ω
  | _, [] => []
  | s, t :: ts =>
    match f s t with
    | (s', some w) => w :: mapAccumEmit f s' ts
    | (s', none) => mapAccumEmit f s' ts

/-- The state reached by a `mapAccumEmit` scan after consuming a list. -/
def scanState (f : σ → τ → σ × Option ω) (s : σ) (ts : List τ) : σ :=
  ts.foldl (fun s t => (f s t).1) s

namespace Stock

/- ================================================================
   src/src/domain/Statistics.ts
   ================================================================ -/

/-- `PricePoint` from `Statistics.ts`: price datum with volume and timestamp. -/
structure PricePoint where
  price : ℚ
  volume : ℚ
  timestamp : ℚ
deriving DecidableEq, Repr

/-- `WindowConfig` discriminated union from `Statistics.ts`. -/
inductive WindowConfig where
  | eventBased (size : ℕ)
  | timeBased (durationMs : ℚ)
  | hybrid (size : ℕ) (durationMs : ℚ)
deriving DecidableEq, Repr

/-- The validated-constructor invariants of `WindowConfig` (the `WindowSize`
and `TimeWindow` brands: positive integer size, positive duration). -/
def validConfig : WindowConfig → Prop
  | .eventBased size => 1 ≤ size
  | .timeBased durationMs => 0 < durationMs
  | .hybrid size durationMs => 1 ≤ size ∧ 0 < durationMs

/-- Internal `Stats` record from `Statistics.ts`.  The JS `Infinity` /
`-Infinity` sentinels of the running `min`/`max` are modelled by `none`. -/
structure Stats where
  count : ℕ
  sum : ℚ
  sumSquares : ℚ
  min : Option ℚ
  max : Option ℚ
  recentPrices : List ℚ
  pricePoints : List PricePoint
  windowConfig : WindowConfig
  lastUpdateTime : ℚ
deriving DecidableEq, Repr

/-- Default window used by `emptyStats` when no config is given. -/
def defaultWindowConfig : WindowConfig := .eventBased 20

/-- `emptyStats` from `Statistics.ts`. -/
def emptyStats (windowConfig : WindowConfig) : Stats :=
  { count := 0
    sum := 0
    sumSquares := 0
    min := none
    max := none
    recentPrices := []
    pricePoints := []
    windowConfig := windowConfig
    lastUpdateTime := 0 }

/-- `Math.min(m, b)` against the `Infinity` sentinel. -/
def jsMinOpt (a : Option ℚ) (b : ℚ) : Option ℚ :=
  some (match a with | none => b | some m => Min.min m b)

/-- `Math.max(m, b)` against the `-Infinity` sentinel. -/
def jsMaxOpt (a : Option ℚ) (b : ℚ) : Option ℚ :=
  some (match a with | none => b | some m => Max.max m b)

/-- `filterByTimeWindow` from `Statistics.ts`: keep points with
`timestamp >= currentTime - durationMs`. -/
def filterByTimeWindow (points : List PricePoint) (durationMs currentTime : ℚ) :
    List PricePoint :=
  let cutoff := currentTime - durationMs
  points.filter (fun p => cutoff ≤ p.timestamp)

/-- `updateStats` from `Statistics.ts`. -/
def updateStats (self : Stats) (price volume timestamp : ℚ) : Stats :=
  let pricePoint : PricePoint := ⟨price, volume, timestamp⟩
  let newPricePoints := self.pricePoints ++ [pricePoint]
  let filteredPoints :=
    match self.windowConfig with
    | .eventBased size => jsSliceLast size newPricePoints
    | .timeBased durationMs => filterByTimeWindow newPricePoints durationMs timestamp
    | .hybrid size durationMs =>
        jsSliceLast size (filterByTimeWindow newPricePoints durationMs timestamp)
  { count := self.count + 1
    sum := self.sum + price
    sumSquares := self.sumSquares + price * price
    min := jsMinOpt self.min price
    max := jsMaxOpt self.max price
    recentPrices := filteredPoints.map (·.price)
    pricePoints := filteredPoints
    windowConfig := self.windowConfig
    lastUpdateTime := timestamp }

/-- A sequence of `updateStats` calls applied to `emptyStats cfg`;
updates are `(price, volume, timestamp)` triples. -/
def applyUpdates (cfg : WindowConfig) (us : List (ℚ × ℚ × ℚ)) : Stats :=
  us.foldl (fun s u => updateStats s u.1 u.2.1 u.2.2) (emptyStats cfg)

/-- The `PricePoint` built by `updateStats` from one update triple. -/
def toPricePoint (u : ℚ × ℚ × ℚ) : PricePoint := ⟨u.1, u.2.1, u.2.2⟩

/-- `calculateVWAP` from `Statistics.ts`. -/
def calculateVWAP (stats : Stats) : ℚ :=
  if stats.pricePoints.length = 0 then 0
  else
    let acc := stats.pricePoints.foldl
      (fun acc p => (acc.1 + p.price * p.volume, acc.2 + p.volume)) (0, 0)
    if 0 < acc.2 then acc.1 / acc.2 else 0

/-- Σ price·volume over the retained ring. -/
def sumPV (stats : Stats) : ℚ := (stats.pricePoints.map (fun p => p.price * p.volume)).sum

/-- Σ volume over the retained ring. -/
def sumVol (stats : Stats) : ℚ := (stats.pricePoints.map (fun p => p.volume)).sum

/-- Minimum of a nonempty list of rationals (0 for the empty list). -/
def listMin : List ℚ → ℚ
  | [] => 0
  | x :: xs => xs.foldl Min.min x

/-- Maximum of a nonempty list of rationals (0 for the empty list). -/
def listMax : List ℚ → ℚ
  | [] => 0
  | x :: xs => xs.foldl Max.max x

/- ================================================================
   src/src/domain/Trade.ts   (validated TradeData values)
   ================================================================ -/

/-- A validated `TradeData` value as consumed downstream (indicators, broker,
UI).  All numeric fields are finite by construction. -/
structure TradeData where
  symbol : String
  price : ℚ
  volume : ℚ
  timestamp : ℚ
  receivedAt : ℚ
  latency : ℚ
deriving DecidableEq, Repr

/- ================================================================
   src/src/domain/Indicator.ts   (Signal sum type)
   ================================================================ -/

/-- `Signal` tagged union from `Indicator.ts`: Buy/Sell carry a strength and a
reason, all three carry a timestamp. -/
inductive Signal where
  | buy (strength : ℚ) (timestamp : ℚ) (reason : String)
  | sell (strength : ℚ) (timestamp : ℚ) (reason : String)
  | hold (timestamp : ℚ)
deriving DecidableEq, Repr

/-- Timestamp projection shared by all three `Signal` variants
(`OrderByTimestamp` sorts by it). -/
def Signal.ts : Signal → ℚ
  | .buy _ t _ => t
  | .sell _ t _ => t
  | .hold t => t

/- ================================================================
   src/src/indicators/MovingAverage.ts
   ================================================================ -/

/-- `"simple" | "exponential"` MA type. -/
inductive MAType where
  | simple
  | exponential
deriving DecidableEq, Repr

/-- `MovingAverageConfig` from `MovingAverage.ts`. -/
structure MAConfig where
  id : String
  symbol : String
  period : ℕ
  maType : MAType
deriving DecidableEq, Repr

/-- Internal `MAState` from `MovingAverage.ts`. -/
structure MAState where
  prices : List ℚ
  currentMA : ℚ
deriving DecidableEq, Repr

/-- `calculateSMA` from `MovingAverage.ts`. -/
def calculateSMA (prices : List ℚ) : ℚ :=
  if prices.length = 0 then 0
  else prices.foldl (fun sum p => sum + p) 0 / prices.length

/-- `calculateEMA` from `MovingAverage.ts`: seed with the first price of the
given list, then iterate `ema' = p·α + ema·(1−α)` with `α = 2/(period+1)`. -/
def calculateEMA (prices : List ℚ) (period : ℕ) : ℚ :=
  match prices with
  | [] => 0
  | p0 :: rest =>
    let multiplier : ℚ := 2 / ((period : ℚ) + 1)
    rest.foldl (fun ema p => p * multiplier + ema * (1 - multiplier)) p0

/-- The `IndicatorState` snapshot emitted by the MA indicator (its `value` and
the metadata fields the claims read). -/
structure MAOut where
  value : ℚ
  currentPrice : ℚ
deriving DecidableEq, Repr

/-- One step of the `Stream.mapAccum` scan inside `MovingAverage.ts process`:
append the price, keep the last `period` prices, recompute the MA, and emit a
state once the ring is full. -/
def maStep (cfg : MAConfig) (state : MAState) (trade : TradeData) :
    MAState × Option MAOut :=
  let newPrices := jsSliceLast cfg.period (state.prices ++ [trade.price])
  let newMA :=
    match cfg.maType with
    | .simple => calculateSMA newPrices
    | .exponential => calculateEMA newPrices cfg.period
  let newState : MAState := ⟨newPrices, newMA⟩
  if cfg.period ≤ newPrices.length then (newState, some ⟨newMA, trade.price⟩)
  else (newState, none)

/-- `process` of `MovingAverage.ts`: filter to the configured symbol, then the
stateful scan. -/
def maProcess (cfg : MAConfig) (trades : List TradeData) : List MAOut :=
  mapAccumEmit (maStep cfg) ⟨[], 0⟩ (trades.filter (fun t => t.symbol == cfg.symbol))

/- ================================================================
   src/src/indicators/RSI.ts
   ================================================================ -/

/-- `RSIConfig` from `RSI.ts`. -/
structure RSIConfig where
  id : String
  symbol : String
  period : ℕ
  oversold : ℚ
  overbought : ℚ
deriving DecidableEq, Repr

/-- Internal `RSIState` from `RSI.ts`. -/
structure RSIState where
  prices : List ℚ
  gains : List ℚ
  losses : List ℚ
  avgGain : ℚ
  avgLoss : ℚ
deriving DecidableEq, Repr

/-- `calculateRSI` from `RSI.ts`: `100 − 100/(1+G/L)`, and 100 when `L = 0`. -/
def calculateRSI (avgGain avgLoss : ℚ) : ℚ :=
  if avgLoss = 0 then 100
  else 100 - 100 / (1 + avgGain / avgLoss)

/-- The `IndicatorState` snapshot emitted by the RSI indicator (its `value`
and the metadata fields `signal` reads). -/
structure RSIOut where
  value : ℚ
  avgGain : ℚ
  avgLoss : ℚ
  currentPrice : ℚ
  oversold : ℚ
  overbought : ℚ
deriving DecidableEq, Repr

/-- One step of the `Stream.mapAccum` scan inside `RSI.ts process`. -/
def rsiStep (cfg : RSIConfig) (state : RSIState) (trade : TradeData) :
    RSIState × Option RSIOut :=
  let newPrices := state.prices ++ [trade.price]
  if newPrices.length < 2 then ({ state with prices := newPrices }, none)
  else
    let change := newPrices.getD (newPrices.length - 1) 0 -
      newPrices.getD (newPrices.length - 2) 0
    let gain := if 0 < change then change else 0
    let loss := if change < 0 then -change else 0
    let newGains := jsSliceLast cfg.period (state.gains ++ [gain])
    let newLosses := jsSliceLast cfg.period (state.losses ++ [loss])
    let avgs : ℚ × ℚ :=
      if newGains.length < cfg.period then
        (newGains.foldl (fun sum g => sum + g) 0 / newGains.length,
         newLosses.foldl (fun sum l => sum + l) 0 / newLosses.length)
      else
        ((state.avgGain * ((cfg.period : ℚ) - 1) + gain) / cfg.period,
         (state.avgLoss * ((cfg.period : ℚ) - 1) + loss) / cfg.period)
    let rsi := calculateRSI avgs.1 avgs.2
    let newState : RSIState :=
      { prices := jsSliceLast (cfg.period + 1) newPrices
        gains := newGains
        losses := newLosses
        avgGain := avgs.1
        avgLoss := avgs.2 }
    if cfg.period ≤ newGains.length then
      (newState, some ⟨rsi, avgs.1, avgs.2, trade.price, cfg.oversold, cfg.overbought⟩)
    else (newState, none)

/-- `process` of `RSI.ts`: filter to the configured symbol, then the stateful
scan. -/
def rsiProcess (cfg : RSIConfig) (trades : List TradeData) : List RSIOut :=
  mapAccumEmit (rsiStep cfg)
    { prices := [], gains := [], losses := [], avgGain := 0, avgLoss := 0 }
    (trades.filter (fun t => t.symbol == cfg.symbol))

/-- Numeric rendering inside reason strings (the source uses `toFixed(2)`;
only the surrounding words matter to any claim). -/
def fmtNum (q : ℚ) : String := toString q

/-- `signal` of `RSI.ts` applied to an emitted state; `now` is the ambient
`state.lastUpdate` wall-clock stamp. -/
def rsiSignal (now : ℚ) (state : RSIOut) : Signal :=
  if state.value < state.oversold then
    .buy (Min.min 1 ((state.oversold - state.value) / state.oversold)) now
      ("RSI oversold at " ++ fmtNum state.value ++ " (threshold: " ++
        fmtNum state.oversold ++ ")")
  else if state.overbought < state.value then
    .sell (Min.min 1 ((state.value - state.overbought) / (100 - state.overbought))) now
      ("RSI overbought at " ++ fmtNum state.value ++ " (threshold: " ++
        fmtNum state.overbought ++ ")")
  else .hold now

/- ================================================================
   src/unnamed/part_004   (SignalAggregatorLive)
   ================================================================ -/

/-- The weighted-vote accumulator loop of `SignalAggregatorLive.aggregate`:
`(buyScore, sellScore, holdCount, reasons)`. -/
def aggScores (signals : List Signal) : ℚ × ℚ × ℕ × List String :=
  signals.foldl
    (fun acc s =>
      match s with
      | .buy strength _ reason => (acc.1 + strength, acc.2.1, acc.2.2.1, acc.2.2.2 ++ [reason])
      | .sell strength _ reason => (acc.1, acc.2.1 + strength, acc.2.2.1, acc.2.2.2 ++ [reason])
      | .hold _ => (acc.1, acc.2.1, acc.2.2.1 + 1, acc.2.2.2))
    (0, 0, 0, [])

/-- `buyScore` of the aggregator. -/
def buyScore (signals : List Signal) : ℚ := (aggScores signals).1

/-- `sellScore` of the aggregator. -/
def sellScore (signals : List Signal) : ℚ := (aggScores signals).2.1

/-- `Array.sort(OrderByTimestamp)` then `Array.last`: the timestamp of the
latest signal (stable sort, so the last max-timestamp input), falling back to
`now` on an empty list. -/
def latestTimestamp (now : ℚ) (signals : List Signal) : ℚ :=
  match (signals.mergeSort (fun a b => a.ts ≤ b.ts)).getLast? with
  | some s => s.ts
  | none => now

/-- `aggregate` of `SignalAggregatorLive` (src/unnamed/part_004).  `now` is
the ambient `DateTime.unsafeNow()`. -/
def aggregate (now : ℚ) (signals : List Signal) : Signal :=
  if signals.length = 0 then .hold now
  else
    let scores := aggScores signals
    let reasons := scores.2.2.2
    let timestamp := latestTimestamp now signals
    let totalSignals : ℚ := signals.length
    if scores.1 > scores.2.1 ∧ scores.1 > totalSignals * (3/10) then
      .buy (Min.min 1 (scores.1 / totalSignals)) timestamp
        ("Consensus buy (" ++ toString reasons.length ++ " indicators): " ++
          String.intercalate ", " reasons)
    else if scores.2.1 > scores.1 ∧ scores.2.1 > totalSignals * (3/10) then
      .sell (Min.min 1 (scores.2.1 / totalSignals)) timestamp
        ("Consensus sell (" ++ toString reasons.length ++ " indicators): " ++
          String.intercalate ", " reasons)
    else .hold timestamp

/- ================================================================
   src/unnamed/part_008   (branded Trade schemas and construction)
   ================================================================ -/

/-- A raw JavaScript number as seen by the validation schemas: a finite value,
an infinity, or NaN. -/
inductive JSNumber where
  | num (q : ℚ)
  | posInf
  | negInf
  | nan
deriving DecidableEq, Repr

/-- JS `n >= 0` (`Schema.nonNegative`); false for NaN. -/
def jsNonNeg : JSNumber → Bool
  | .num q => 0 ≤ q
  | .posInf => true
  | .negInf => false
  | .nan => false

/-- JS `n > 0` (`Schema.positive`); false for NaN. -/
def jsPositive : JSNumber → Bool
  | .num q => 0 < q
  | .posInf => true
  | .negInf => false
  | .nan => false

/-- `Number.isFinite` (`Schema.finite`). -/
def jsFinite : JSNumber → Bool
  | .num _ => true
  | _ => false

/-- `Number.isInteger` (`Schema.int`). -/
def jsIsInteger : JSNumber → Bool
  | .num q => q.den == 1
  | _ => false

/-- An unvalidated payload offered to `Schema.decode(Trade.TradeData)`. -/
structure TradeRaw where
  symbol : String
  price : JSNumber
  volume : JSNumber
  timestamp : JSNumber
  receivedAt : JSNumber
  latency : JSNumber
  conditions : Option (List String)
deriving DecidableEq, Repr

/-- `Schema.decode(Trade.TradeData)` over the branded field schemas of
src/unnamed/part_008: succeeds exactly when every field refinement passes
(`SymbolSchema` nonempty, `PriceSchema`/`VolumeSchema` nonnegative finite,
`TimestampSchema` positive integer for both timestamps, `LatencySchema`
nonnegative finite); fails with a `ParseError` otherwise. -/
def decodeTradeData (r : TradeRaw) : Option TradeRaw :=
  if r.symbol ≠ "" ∧
      jsNonNeg r.price ∧ jsFinite r.price ∧
      jsNonNeg r.volume ∧ jsFinite r.volume ∧
      jsPositive r.timestamp ∧ jsIsInteger r.timestamp ∧
      jsPositive r.receivedAt ∧ jsIsInteger r.receivedAt ∧
      jsNonNeg r.latency ∧ jsFinite r.latency then
    some r
  else none

/- ================================================================
   src/src/ui/state/UIState.ts
   ================================================================ -/

/-- `UIState` from `UIState.ts` (the `statistics` map is carried as an
association list; `addTrade` never touches it). -/
structure UIState where
  recentTrades : List TradeData
  statistics : List (String × Stats)
  symbols : List String
  maxTrades : ℕ
deriving DecidableEq, Repr

/-- `addTrade` from `UIState.ts`: prepend, then `slice(0, maxTrades)`. -/
def addTrade (state : UIState) (trade : TradeData) : UIState :=
  { state with recentTrades := (trade :: state.recentTrades).take state.maxTrades }

/- ================================================================
   TradeBroker (spec §4.2)
   ================================================================ -/

/-- Modelled from the spec: one broker subscriber.  The Effect `PubSub`
internals behind `TradePubSubLive` (src/src/services/TradePubSub.ts) are a
library dependency not under src/, so the broker is modelled from spec §4.2:
a subscriber owns a bounded queue and remembers the index into the global
publish sequence at which its subscription completed; `taken` is what its
consumer has already dequeued. -/
structure Subscriber where
  subAt : ℕ
  taken : List TradeData
  queue : List TradeData
deriving DecidableEq, Repr

/-- Modelled from the spec: broker state — the global publish sequence, the
attached subscribers (an association list keyed by subscriber id) and the
per-subscriber queue capacity. -/
structure BrokerState where
  published : List TradeData
  subs : List (ℕ × Subscriber)
  capacity : ℕ
deriving DecidableEq, Repr

/-- Modelled from the spec: the four broker interactions — a publish, a new
subscription, one dequeue by a subscriber's consumer, and a subscriber's
scope ending. -/
inductive BrokerEvent where
  | publish (t : TradeData)
  | subscribe (id : ℕ)
  | consume (id : ℕ)
  | unsubscribe (id : ℕ)
deriving DecidableEq, Repr

/-- Dequeue the head of subscriber `id`'s queue into its `taken` list; `none`
when the subscriber is absent or its queue is empty (the consumer suspends). -/
def consumeSub : List (ℕ × Subscriber) → ℕ → Option (List (ℕ × Subscriber))
  | [], _ => none
  | (i, sub) :: rest, id =>
    if i = id then
      match sub.queue with
      | [] => none
      | q :: qs =>
        some ((i, { sub with taken := sub.taken ++ [q], queue := qs }) :: rest)
    else (consumeSub rest id).map (fun l => (i, sub) :: l)

/-- Modelled from the spec: one atomic broker transition.  `publish` enqueues
onto every attached subscriber's queue at once and is only enabled while every
queue has capacity (backpressure: a full queue blocks the publisher, nothing
is dropped).  `subscribe` attaches a fresh subscriber whose stream begins at
the current end of the publish sequence. -/
def brokerStep (s : BrokerState) : BrokerEvent → Option BrokerState
  | .publish t =>
    if s.subs.all (fun p => p.2.queue.length < s.capacity) then
      some { s with
        published := s.published ++ [t]
        subs := s.subs.map (fun p => (p.1, { p.2 with queue := p.2.queue ++ [t] })) }
    else none
  | .subscribe id =>
    if s.subs.any (fun p => p.1 == id) then none
    else some { s with subs := s.subs ++ [(id, ⟨s.published.length, [], []⟩)] }
  | .consume id => (consumeSub s.subs id).map (fun subs => { s with subs := subs })
  | .unsubscribe id => some { s with subs := s.subs.filter (fun p => p.1 ≠ id) }

/-- Run a sequence of broker events from a state. -/
def brokerRun (s : BrokerState) : List BrokerEvent → Option BrokerState
  | [] => some s
  | e :: es => (brokerStep s e).bind (fun s' => brokerRun s' es)

/-- The broker as created by `TradePubSubLive`: open, no subscribers, bounded
capacity. -/
def brokerInit (capacity : ℕ) : BrokerState := ⟨[], [], capacity⟩

/-- Broker safety invariant: every attached subscriber's subscription index is
within the publish sequence, what it has consumed plus what is still queued is
exactly the publish suffix since its subscription, and its queue respects the
bound. -/
def brokerInv (s : BrokerState) : Prop :=
  ∀ p ∈ s.subs,
    p.2.subAt ≤ s.published.length ∧
    p.2.taken ++ p.2.queue = s.published.drop p.2.subAt ∧
    p.2.queue.length ≤ s.capacity

/- ================================================================
   Concrete values used by witnesses and counterexamples
   ================================================================ -/

/-- A concrete valid trade. -/
def tradeA : TradeData := ⟨"AAPL", 150, 100, 1, 1, 0⟩

/-- A second concrete valid trade. -/
def tradeB : TradeData := ⟨"GOOGL", 2800, 50, 2, 2, 0⟩

/-- A third concrete valid trade. -/
def tradeC : TradeData := ⟨"MSFT", 350, 10, 3, 3, 0⟩

/-- Trade on symbol "A" at a given price (timestamps fixed). -/
def tradeAt (price : ℚ) : TradeData := ⟨"A", price, 1, 1, 1, 0⟩

/-- `empty` from `UIState.ts`: no trades, no statistics. -/
def emptyUI (symbols : List String) (maxTrades : ℕ) : UIState :=
  ⟨[], [], symbols, maxTrades⟩

/-- A raw trade payload whose latency is `Infinity` and whose other fields all
validate. -/
def infLatencyTrade : TradeRaw :=
  ⟨"AAPL", .num 1, .num 1, .num 1, .num 1, .posInf, none⟩

/-- The strength a signal contributes to `buyScore` (Buy strength, else 0). -/
def buyStrengthOf : Signal → ℚ
  | .buy strength _ _ => strength
  | _ => 0

/-- The strength a signal contributes to `sellScore` (Sell strength, else 0). -/
def sellStrengthOf : Signal → ℚ
  | .sell strength _ _ => strength
  | _ => 0

/-- Fifteen strictly increasing prices (1..15) on symbol "A". -/
def rsiTrades15 : List TradeData :=
  [tradeAt 1, tradeAt 2, tradeAt 3, tradeAt 4, tradeAt 5, tradeAt 6, tradeAt 7,
   tradeAt 8, tradeAt 9, tradeAt 10, tradeAt 11, tradeAt 12, tradeAt 13,
   tradeAt 14, tradeAt 15]

/-- A `Stats` value whose ring contains a negative volume. -/
def badStats : Stats :=
  { count := 2, sum := 100, sumSquares := 10000, min := some 0, max := some 100
    recentPrices := [0, 100]
    pricePoints := [⟨0, 2, 1⟩, ⟨100, -1, 1⟩]
    windowConfig := .eventBased 20, lastUpdateTime := 1 }

/-- A `Stats` value with a single unit-volume point at price 1. -/
def oneStats : Stats :=
  { count := 1, sum := 1, sumSquares := 1, min := some 1, max := some 1
    recentPrices := [1]
    pricePoints := [⟨1, 1, 1⟩]
    windowConfig := .eventBased 20, lastUpdateTime := 1 }

end Stock



/- ================================================================
   Helper lemmas
   ================================================================ -/

theorem jsSliceLast_eq_drop {α : Type} (n : ℕ) (l : List α) (h : 1 ≤ n) :
    jsSliceLast n l = l.drop (l.length - n) := by
  unfold jsSliceLast
  rw [if_neg (by omega), List.take_reverse, List.reverse_reverse]

theorem jsSliceLast_nil {α : Type} (n : ℕ) : jsSliceLast n ([] : List α) = [] := by
  unfold jsSliceLast
  by_cases h : n = 0 <;> simp [h]

theorem length_jsSliceLast {α : Type} (n : ℕ) (l : List α) (h : 1 ≤ n) :
    (jsSliceLast n l).length = Min.min n l.length := by
  unfold jsSliceLast
  rw [if_neg (by omega)]
  simp

theorem jsSliceLast_sublist {α : Type} (n : ℕ) (l : List α) :
    (jsSliceLast n l).Sublist l := by
  unfold jsSliceLast
  by_cases h : n = 0
  · simp [h]
  · rw [if_neg h, List.take_reverse, List.reverse_reverse]
    exact List.drop_sublist _ _

theorem jsSliceLast_suffix {α : Type} (n : ℕ) (l : List α) :
    jsSliceLast n l <:+ l := by
  unfold jsSliceLast
  by_cases h : n = 0
  · simp [h]
  · rw [if_neg h, List.take_reverse, List.reverse_reverse]
    exact List.drop_suffix _ _

theorem jsSliceLast_concat {α : Type} (n : ℕ) (l : List α) (x : α) (h : 1 ≤ n) :
    jsSliceLast n (l ++ [x]) = (l.reverse.take (n - 1)).reverse ++ [x] := by
  obtain ⟨m, rfl⟩ : ∃ m, n = m + 1 := ⟨n - 1, by omega⟩
  unfold jsSliceLast
  rw [if_neg (by omega)]
  simp [List.reverse_append]

theorem jsSliceLast_reverse_eq_take {α : Type} (n : ℕ) (l : List α) (h : 1 ≤ n) :
    (jsSliceLast n l).reverse = l.reverse.take n := by
  unfold jsSliceLast
  rw [if_neg (by omega), List.reverse_reverse]

theorem jsSliceLast_idem_concat {α : Type} (n : ℕ) (l : List α) (x : α) (h : 1 ≤ n) :
    jsSliceLast n (jsSliceLast n l ++ [x]) = jsSliceLast n (l ++ [x]) := by
  rw [jsSliceLast_concat _ _ _ h, jsSliceLast_concat _ _ _ h,
    jsSliceLast_reverse_eq_take _ _ h, List.take_take]
  congr 3
  omega

theorem mapAccumEmit_append {σ τ ω : Type} (f : σ → τ → σ × Option ω) (s : σ)
    (l₁ l₂ : List τ) :
    mapAccumEmit f s (l₁ ++ l₂) =
      mapAccumEmit f s l₁ ++ mapAccumEmit f (scanState f s l₁) l₂ := by
  induction l₁ generalizing s with
  | nil => simp [mapAccumEmit, scanState]
  | cons t ts ih =>
    simp only [List.cons_append, mapAccumEmit, scanState, List.foldl_cons]
    rcases hft : f s t with ⟨s', w⟩
    cases w <;> simp [ih s', scanState]


namespace Stock

/- ================================================================
   Lemmas: updateStats / applyUpdates
   ================================================================ -/

theorem updateStats_windowConfig (s : Stats) (p v t : ℚ) :
    (updateStats s p v t).windowConfig = s.windowConfig := rfl

theorem updateStats_count (s : Stats) (p v t : ℚ) :
    (updateStats s p v t).count = s.count + 1 := rfl

theorem updateStats_lastUpdateTime (s : Stats) (p v t : ℚ) :
    (updateStats s p v t).lastUpdateTime = t := rfl

theorem updateStats_pricePoints_eventBased {s : Stats} {N : ℕ}
    (h : s.windowConfig = .eventBased N) (p v t : ℚ) :
    (updateStats s p v t).pricePoints = jsSliceLast N (s.pricePoints ++ [⟨p, v, t⟩]) := by
  simp [updateStats, h]

theorem updateStats_pricePoints_timeBased {s : Stats} {D : ℚ}
    (h : s.windowConfig = .timeBased D) (p v t : ℚ) :
    (updateStats s p v t).pricePoints =
      filterByTimeWindow (s.pricePoints ++ [⟨p, v, t⟩]) D t := by
  simp [updateStats, h]

theorem updateStats_pricePoints_hybrid {s : Stats} {N : ℕ} {D : ℚ}
    (h : s.windowConfig = .hybrid N D) (p v t : ℚ) :
    (updateStats s p v t).pricePoints =
      jsSliceLast N (filterByTimeWindow (s.pricePoints ++ [⟨p, v, t⟩]) D t) := by
  simp [updateStats, h]

theorem updateStats_recentPrices (s : Stats) (p v t : ℚ) :
    (updateStats s p v t).recentPrices =
      (updateStats s p v t).pricePoints.map PricePoint.price := by
  cases h : s.windowConfig <;> simp [updateStats, h]

theorem updateStats_pricePoints_sublist (s : Stats) (p v t : ℚ) :
    (updateStats s p v t).pricePoints.Sublist (s.pricePoints ++ [⟨p, v, t⟩]) := by
  cases h : s.windowConfig with
  | eventBased N => rw [updateStats_pricePoints_eventBased h]; exact jsSliceLast_sublist _ _
  | timeBased D =>
    rw [updateStats_pricePoints_timeBased h]
    exact List.filter_sublist _
  | hybrid N D =>
    rw [updateStats_pricePoints_hybrid h]
    exact (jsSliceLast_sublist _ _).trans (List.filter_sublist _)

theorem applyUpdates_concat (cfg : WindowConfig) (us : List (ℚ × ℚ × ℚ))
    (u : ℚ × ℚ × ℚ) :
    applyUpdates cfg (us ++ [u]) =
      updateStats (applyUpdates cfg us) u.1 u.2.1 u.2.2 := by
  unfold applyUpdates
  rw [List.foldl_append]
  rfl

theorem applyUpdates_windowConfig (cfg : WindowConfig) (us : List (ℚ × ℚ × ℚ)) :
    (applyUpdates cfg us).windowConfig = cfg := by
  induction us using List.reverseRecOn with
  | nil => rfl
  | append_singleton l u ih => rw [applyUpdates_concat, updateStats_windowConfig]; exact ih

theorem applyUpdates_count (cfg : WindowConfig) (us : List (ℚ × ℚ × ℚ)) :
    (applyUpdates cfg us).count = us.length := by
  induction us using List.reverseRecOn with
  | nil => rfl
  | append_singleton l u ih =>
    rw [applyUpdates_concat, updateStats_count, ih]
    simp

theorem applyUpdates_pricePoints_length_le (cfg : WindowConfig)
    (us : List (ℚ × ℚ × ℚ)) :
    (applyUpdates cfg us).pricePoints.length ≤ (applyUpdates cfg us).count := by
  induction us using List.reverseRecOn with
  | nil => exact Nat.le_refl 0
  | append_singleton l u ih =>
    rw [applyUpdates_concat, updateStats_count]
    have hsub := updateStats_pricePoints_sublist (applyUpdates cfg l) u.1 u.2.1 u.2.2
    have hlen := hsub.length_le
    simp only [List.length_append, List.length_singleton] at hlen
    omega

theorem applyUpdates_eventBased_pricePoints (N : ℕ) (hN : 1 ≤ N)
    (us : List (ℚ × ℚ × ℚ)) :
    (applyUpdates (.eventBased N) us).pricePoints = jsSliceLast N (us.map toPricePoint) := by
  induction us using List.reverseRecOn with
  | nil => simp [applyUpdates, emptyStats, jsSliceLast_nil]
  | append_singleton l u ih =>
    rw [applyUpdates_concat,
      updateStats_pricePoints_eventBased (applyUpdates_windowConfig _ l), ih,
      jsSliceLast_idem_concat _ _ _ hN]
    simp [toPricePoint]

theorem mem_filterByTimeWindow {pts : List PricePoint} {D T : ℚ} {pt : PricePoint}
    (h : pt ∈ filterByTimeWindow pts D T) : T - D ≤ pt.timestamp ∧ pt ∈ pts := by
  unfold filterByTimeWindow at h
  rw [List.mem_filter] at h
  exact ⟨by simpa using h.2, h.1⟩


/- ================================================================
   C1 — window retention invariants of updateStats
   ================================================================ -/

/-- C1 (amended): for every state reachable from `emptyStats` by `updateStats`
calls — under `EventBased N` (N ≥ 1) the ring has length `min count N` and is
a suffix of the full point sequence (most recent points, oldest dropped
first); under `TimeBased D` every retained point has
`timestamp ≥ lastUpdateTime − D`; under `Hybrid N D` the time bound holds and
the ring length is AT MOST `min count N` (the time filter may drop further
points, so equality fails — see the counterexample). -/
theorem c1_window_invariants :
    (∀ (N : ℕ) (us : List (ℚ × ℚ × ℚ)), 1 ≤ N →
      (applyUpdates (.eventBased N) us).pricePoints.length =
        Min.min (applyUpdates (.eventBased N) us).count N ∧
      (applyUpdates (.eventBased N) us).pricePoints <:+ us.map toPricePoint) ∧
    (∀ (D : ℚ) (us : List (ℚ × ℚ × ℚ)),
      ∀ pt ∈ (applyUpdates (.timeBased D) us).pricePoints,
        (applyUpdates (.timeBased D) us).lastUpdateTime - D ≤ pt.timestamp) ∧
    (∀ (N : ℕ) (D : ℚ) (us : List (ℚ × ℚ × ℚ)), 1 ≤ N →
      (applyUpdates (.hybrid N D) us).pricePoints.length ≤
        Min.min (applyUpdates (.hybrid N D) us).count N ∧
      ∀ pt ∈ (applyUpdates (.hybrid N D) us).pricePoints,
        (applyUpdates (.hybrid N D) us).lastUpdateTime - D ≤ pt.timestamp) := by
  refine ⟨?_, ?_, ?_⟩
  · intro N us hN
    have hpts := applyUpdates_eventBased_pricePoints N hN us
    constructor
    · rw [hpts, length_jsSliceLast _ _ hN, applyUpdates_count]
      simp [Nat.min_comm]
    · rw [hpts]
      exact jsSliceLast_suffix _ _
  · intro D us pt hpt
    rcases List.eq_nil_or_concat us with rfl | ⟨l, u, rfl⟩
    · simp [applyUpdates, emptyStats] at hpt
    · rw [List.concat_eq_append, applyUpdates_concat] at hpt ⊢
      rw [updateStats_pricePoints_timeBased (applyUpdates_windowConfig _ l)] at hpt
      rw [updateStats_lastUpdateTime]
      exact (mem_filterByTimeWindow hpt).1
  · intro N D us hN
    constructor
    · refine le_min (applyUpdates_pricePoints_length_le _ us) ?_
      rcases List.eq_nil_or_concat us with rfl | ⟨l, u, rfl⟩
      · simp [applyUpdates, emptyStats]
      · rw [List.concat_eq_append, applyUpdates_concat,
          updateStats_pricePoints_hybrid (applyUpdates_windowConfig _ l),
          length_jsSliceLast _ _ hN]
        exact min_le_left _ _
    · intro pt hpt
      rcases List.eq_nil_or_concat us with rfl | ⟨l, u, rfl⟩
      · simp [applyUpdates, emptyStats] at hpt
      · rw [List.concat_eq_append, applyUpdates_concat] at hpt ⊢
        rw [updateStats_pricePoints_hybrid (applyUpdates_windowConfig _ l)] at hpt
        rw [updateStats_lastUpdateTime]
        have hmem := (jsSliceLast_sublist _ _).mem hpt
        exact (mem_filterByTimeWindow hmem).1

/-- C1 counterexample: under `Hybrid(2, 5)` the updates `(1,1,0), (1,1,100)`
leave a ring of length 1 although `min(count, N) = min(2, 2) = 2` — the time
filter dropped the first point, so the EventBased length equality does not
hold under Hybrid. -/
theorem c1_counterexample :
    (applyUpdates (.hybrid 2 5) [(1, 1, 0), (1, 1, 100)]).pricePoints.length ≠
      Min.min (applyUpdates (.hybrid 2 5) [(1, 1, 0), (1, 1, 100)]).count 2 := by
  norm_num [applyUpdates, updateStats, emptyStats, filterByTimeWindow, jsSliceLast,
    jsMinOpt, jsMaxOpt]

/-- C1 witness: the amended invariants instantiated at `EventBased 2`,
`TimeBased 5` and `Hybrid 2 5` on the concrete update list
`[(1,1,0), (2,1,100)]`. -/
theorem c1_witness :
    (applyUpdates (.eventBased 2) [(1, 1, 0), (2, 1, 100)]).pricePoints.length =
      Min.min (applyUpdates (.eventBased 2) [(1, 1, 0), (2, 1, 100)]).count 2 ∧
    (∀ pt ∈ (applyUpdates (.timeBased 5) [(1, 1, 0), (2, 1, 100)]).pricePoints,
      (applyUpdates (.timeBased 5) [(1, 1, 0), (2, 1, 100)]).lastUpdateTime - 5 ≤
        pt.timestamp) ∧
    (applyUpdates (.hybrid 2 5) [(1, 1, 0), (2, 1, 100)]).pricePoints.length ≤
      Min.min (applyUpdates (.hybrid 2 5) [(1, 1, 0), (2, 1, 100)]).count 2 :=
  ⟨(c1_window_invariants.1 2 [(1, 1, 0), (2, 1, 100)] (by decide)).1,
   c1_window_invariants.2.1 5 [(1, 1, 0), (2, 1, 100)],
   (c1_window_invariants.2.2 2 5 [(1, 1, 0), (2, 1, 100)] (by decide)).1⟩

/- ================================================================
   C10 — postcondition of a single updateStats call
   ================================================================ -/

/-- C10: for every `Stats` state with a valid window config, after
`updateStats s p v t` the ring is non-empty with the just-added point
`{p, v, t}` as its last element, `recentPrices` is the ring mapped to price,
and `lastUpdateTime` is the given timestamp. -/
theorem c10_updateStats_post (s : Stats) (p v t : ℚ)
    (h : validConfig s.windowConfig) :
    (updateStats s p v t).pricePoints ≠ [] ∧
    (∃ pre, (updateStats s p v t).pricePoints = pre ++ [⟨p, v, t⟩]) ∧
    (updateStats s p v t).recentPrices =
      (updateStats s p v t).pricePoints.map PricePoint.price ∧
    (updateStats s p v t).lastUpdateTime = t := by
  have hlast : ∃ pre, (updateStats s p v t).pricePoints = pre ++ [(⟨p, v, t⟩ : PricePoint)] := by
    cases hcfg : s.windowConfig with
    | eventBased N =>
      rw [hcfg] at h
      simp only [validConfig] at h
      rw [updateStats_pricePoints_eventBased hcfg, jsSliceLast_concat _ _ _ h]
      exact ⟨_, rfl⟩
    | timeBased D =>
      rw [hcfg] at h
      simp only [validConfig] at h
      rw [updateStats_pricePoints_timeBased hcfg]
      unfold filterByTimeWindow
      rw [List.filter_append]
      have hsingle : List.filter (fun pt => decide (t - D ≤ pt.timestamp))
          [(⟨p, v, t⟩ : PricePoint)] = [⟨p, v, t⟩] := by
        simp only [List.filter_cons, List.filter_nil]
        rw [if_pos]
        simpa using le_of_lt (by linarith : t - D < t)
      rw [hsingle]
      exact ⟨_, rfl⟩
    | hybrid N D =>
      rw [hcfg] at h
      simp only [validConfig] at h
      rw [updateStats_pricePoints_hybrid hcfg]
      unfold filterByTimeWindow
      rw [List.filter_append]
      have hsingle : List.filter (fun pt => decide (t - D ≤ pt.timestamp))
          [(⟨p, v, t⟩ : PricePoint)] = [⟨p, v, t⟩] := by
        simp only [List.filter_cons, List.filter_nil]
        rw [if_pos]
        simpa using le_of_lt (by linarith [h.2] : t - D < t)
      rw [hsingle, jsSliceLast_concat _ _ _ h.1]
      exact ⟨_, rfl⟩
  refine ⟨?_, hlast, updateStats_recentPrices s p v t, updateStats_lastUpdateTime s p v t⟩
  rcases hlast with ⟨pre, hpre⟩
  rw [hpre]
  simp

/-- C10 witness: the postcondition at `emptyStats (EventBased 20)` with the
update `(1, 2, 3)`. -/
theorem c10_witness :
    (updateStats (emptyStats (.eventBased 20)) 1 2 3).pricePoints ≠ [] ∧
    (updateStats (emptyStats (.eventBased 20)) 1 2 3).lastUpdateTime = 3 := by
  have h := c10_updateStats_post (emptyStats (.eventBased 20)) 1 2 3
    (by simp [emptyStats, validConfig])
  exact ⟨h.1, h.2.2.2⟩


/- ================================================================
   Lemmas: VWAP
   ================================================================ -/

theorem vwap_foldl (pts : List PricePoint) (a b : ℚ) :
    pts.foldl (fun acc p => (acc.1 + p.price * p.volume, acc.2 + p.volume)) (a, b) =
      (a + (pts.map (fun p => p.price * p.volume)).sum,
       b + (pts.map (fun p => p.volume)).sum) := by
  induction pts generalizing a b with
  | nil => simp
  | cons x xs ih =>
    simp only [List.foldl_cons, List.map_cons, List.sum_cons, ih]
    rw [Prod.mk.injEq]
    constructor <;> ring

theorem calculateVWAP_eq (s : Stats) :
    calculateVWAP s = if 0 < sumVol s then sumPV s / sumVol s else 0 := by
  unfold calculateVWAP sumPV sumVol
  cases h : s.pricePoints with
  | nil => simp [h]
  | cons x xs =>
    simp only [h, List.length_cons, vwap_foldl, zero_add]
    norm_num

theorem foldl_min_le_init (l : List ℚ) (a : ℚ) : l.foldl Min.min a ≤ a := by
  induction l generalizing a with
  | nil => exact le_refl a
  | cons x xs ih => exact le_trans (ih (Min.min a x)) (min_le_left a x)

theorem foldl_min_le_mem (l : List ℚ) (a : ℚ) : ∀ x ∈ l, l.foldl Min.min a ≤ x := by
  induction l generalizing a with
  | nil => intro x hx; simp at hx
  | cons y ys ih =>
    intro x hx
    rcases List.mem_cons.mp hx with rfl | hx
    · exact le_trans (foldl_min_le_init ys (Min.min a x)) (min_le_right a x)
    · exact ih (Min.min a y) x hx

theorem init_le_foldl_max (l : List ℚ) (a : ℚ) : a ≤ l.foldl Max.max a := by
  induction l generalizing a with
  | nil => exact le_refl a
  | cons x xs ih => exact le_trans (le_max_left a x) (ih (Max.max a x))

theorem mem_le_foldl_max (l : List ℚ) (a : ℚ) : ∀ x ∈ l, x ≤ l.foldl Max.max a := by
  induction l generalizing a with
  | nil => intro x hx; simp at hx
  | cons y ys ih =>
    intro x hx
    rcases List.mem_cons.mp hx with rfl | hx
    · exact le_trans (le_max_right a x) (init_le_foldl_max ys (Max.max a x))
    · exact ih (Max.max a y) x hx

theorem listMin_le {l : List ℚ} {x : ℚ} (hx : x ∈ l) : listMin l ≤ x := by
  cases l with
  | nil => simp at hx
  | cons y ys =>
    rcases List.mem_cons.mp hx with rfl | hx
    · exact foldl_min_le_init ys x
    · exact foldl_min_le_mem ys y x hx

theorem le_listMax {l : List ℚ} {x : ℚ} (hx : x ∈ l) : x ≤ listMax l := by
  cases l with
  | nil => simp at hx
  | cons y ys =>
    rcases List.mem_cons.mp hx with rfl | hx
    · exact init_le_foldl_max ys x
    · exact mem_le_foldl_max ys y x hx

theorem sum_pv_le_max (pts : List PricePoint) (M : ℚ)
    (hM : ∀ pt ∈ pts, pt.price ≤ M) (hv : ∀ pt ∈ pts, 0 ≤ pt.volume) :
    (pts.map (fun p => p.price * p.volume)).sum ≤
      M * (pts.map (fun p => p.volume)).sum := by
  induction pts with
  | nil => simp
  | cons x xs ih =>
    simp only [List.map_cons, List.sum_cons, mul_add]
    have h1 : x.price * x.volume ≤ M * x.volume :=
      mul_le_mul_of_nonneg_right (hM x (List.mem_cons_self x xs)) (hv x (List.mem_cons_self x xs))
    have h2 := ih (fun pt hpt => hM pt (List.mem_cons_of_mem x hpt))
      (fun pt hpt => hv pt (List.mem_cons_of_mem x hpt))
    exact add_le_add h1 h2

theorem min_le_sum_pv (pts : List PricePoint) (m : ℚ)
    (hm : ∀ pt ∈ pts, m ≤ pt.price) (hv : ∀ pt ∈ pts, 0 ≤ pt.volume) :
    m * (pts.map (fun p => p.volume)).sum ≤
      (pts.map (fun p => p.price * p.volume)).sum := by
  induction pts with
  | nil => simp
  | cons x xs ih =>
    simp only [List.map_cons, List.sum_cons, mul_add]
    have h1 : m * x.volume ≤ x.price * x.volume :=
      mul_le_mul_of_nonneg_right (hm x (List.mem_cons_self x xs)) (hv x (List.mem_cons_self x xs))
    have h2 := ih (fun pt hpt => hm pt (List.mem_cons_of_mem x hpt))
      (fun pt hpt => hv pt (List.mem_cons_of_mem x hpt))
    exact add_le_add h1 h2

/- ================================================================
   C6 — VWAP
   ================================================================ -/

/-- C6 (amended): `calculateVWAP` returns `Σ(price·volume)/Σvolume` when
`Σvolume > 0` and `0` when `Σvolume = 0`; whenever `Σvolume > 0` AND every
retained point has non-negative volume (always the case for points built from
validated trades, but not for arbitrary `Stats` states — see the
counterexample) the result lies in `[min ring price, max ring price]`; and for
the three updates `(100,100), (110,200), (120,100)` it equals 110. -/
theorem c6_vwap :
    (∀ s : Stats, (sumVol s = 0 → calculateVWAP s = 0) ∧
      (0 < sumVol s → calculateVWAP s = sumPV s / sumVol s)) ∧
    (∀ s : Stats, 0 < sumVol s → (∀ pt ∈ s.pricePoints, 0 ≤ pt.volume) →
      listMin (s.pricePoints.map PricePoint.price) ≤ calculateVWAP s ∧
      calculateVWAP s ≤ listMax (s.pricePoints.map PricePoint.price)) ∧
    calculateVWAP
      (applyUpdates defaultWindowConfig [(100, 100, 1), (110, 200, 2), (120, 100, 3)]) =
      110 := by
  refine ⟨?_, ?_, ?_⟩
  · intro s
    rw [calculateVWAP_eq]
    constructor
    · intro h
      rw [if_neg]
      rw [h]
      exact lt_irrefl 0
    · intro h
      rw [if_pos h]
  · intro s hpos hv
    have hvwap := ((calculateVWAP_eq s).trans (if_pos hpos))
    rw [hvwap]
    constructor
    · rw [le_div_iff₀ hpos]
      refine min_le_sum_pv s.pricePoints _ ?_ hv
      intro pt hpt
      exact listMin_le (List.mem_map_of_mem PricePoint.price hpt)
    · rw [div_le_iff₀ hpos]
      refine sum_pv_le_max s.pricePoints _ ?_ hv
      intro pt hpt
      exact le_listMax (List.mem_map_of_mem PricePoint.price hpt)
  · norm_num [applyUpdates, updateStats, emptyStats, defaultWindowConfig, jsSliceLast,
      jsMinOpt, jsMaxOpt, calculateVWAP, filterByTimeWindow]

/-- C6 counterexample: a `Stats` state whose ring holds a negative volume —
`pricePoints = [{price 0, vol 2}, {price 100, vol −1}]` has `Σvolume = 1 > 0`
but VWAP `= −100`, far below the minimum ring price 0: the `[min, max]` bound
does not hold for every `Stats` state. -/
theorem c6_counterexample :
    0 < sumVol badStats ∧
    ¬ (listMin (badStats.pricePoints.map PricePoint.price) ≤ calculateVWAP badStats ∧
      calculateVWAP badStats ≤ listMax (badStats.pricePoints.map PricePoint.price)) := by
  norm_num [badStats, sumVol, calculateVWAP, listMin, listMax]

/-- C6 witness: the bound instantiated at a one-point ring with unit volume
(price 1): VWAP is bracketed by the ring min and max. -/
theorem c6_witness :
    listMin (oneStats.pricePoints.map PricePoint.price) ≤ calculateVWAP oneStats ∧
    calculateVWAP oneStats ≤ listMax (oneStats.pricePoints.map PricePoint.price) := by
  refine c6_vwap.2.1 oneStats (by norm_num [oneStats, sumVol]) ?_
  intro pt hpt
  simp only [oneStats, List.mem_singleton] at hpt
  rw [hpt]
  norm_num


/- ================================================================
   C9 — UIState.addTrade
   ================================================================ -/

theorem take_append_take {α : Type} (m : ℕ) (a b : List α) :
    List.take m (a ++ List.take m b) = List.take m (a ++ b) := by
  rw [List.take_append_eq_append_take, List.take_append_eq_append_take, List.take_take]
  have h : (m - a.length) ⊓ m = m - a.length := by omega
  rw [h]

theorem addTrade_recentTrades (s : UIState) (t : TradeData) :
    (addTrade s t).recentTrades = (t :: s.recentTrades).take s.maxTrades := rfl

theorem addTrade_maxTrades (s : UIState) (t : TradeData) :
    (addTrade s t).maxTrades = s.maxTrades := rfl

/-- C9: `recentTrades` after `addTrade` calls is newest-first (prepend then
cap): a single call yields `take maxTrades (t :: old)`, the length never
exceeds `maxTrades`, everything after the newest entry is a sublist of the
previous `recentTrades` (eviction preserves the older trades' relative
order), and a non-empty call sequence yields the newest-first capped view of
all added trades. -/
theorem c9_addTrade :
    (∀ (s : UIState) (t : TradeData),
      (addTrade s t).recentTrades = (t :: s.recentTrades).take s.maxTrades) ∧
    (∀ (s : UIState) (t : TradeData),
      (addTrade s t).recentTrades.length ≤ s.maxTrades) ∧
    (∀ (s : UIState) (t : TradeData),
      ((addTrade s t).recentTrades.drop 1).Sublist s.recentTrades) ∧
    (∀ (s : UIState) (ts : List TradeData), ts ≠ [] →
      (ts.foldl addTrade s).recentTrades =
        (ts.reverse ++ s.recentTrades).take s.maxTrades) := by
  refine ⟨fun s t => rfl, ?_, ?_, ?_⟩
  · intro s t
    rw [addTrade_recentTrades, List.length_take]
    exact min_le_left _ _
  · intro s t
    rw [addTrade_recentTrades]
    cases hm : s.maxTrades with
    | zero => simp
    | succ k =>
      rw [List.take_succ_cons, List.drop_one, List.tail_cons]
      exact List.take_sublist k s.recentTrades
  · intro s ts h
    induction ts generalizing s with
    | nil => exact absurd rfl h
    | cons t ts ih =>
      by_cases hts : ts = []
      · subst hts
        simp [addTrade]
      · rw [List.foldl_cons, ih (addTrade s t) hts, addTrade_recentTrades,
          addTrade_maxTrades, List.reverse_cons, take_append_take]
        congr 1
        simp

/-- C9 witness: three adds into an empty view model capped at 2 keep the two
newest trades, newest first. -/
theorem c9_witness :
    (([tradeA, tradeB, tradeC]).foldl addTrade (emptyUI ["A"] 2)).recentTrades =
      [tradeC, tradeB] := by
  rw [c9_addTrade.2.2.2 (emptyUI ["A"] 2) [tradeA, tradeB, tradeC] (by simp)]
  rfl

/- ================================================================
   C7 — TradeData construction (branded schemas)
   ================================================================ -/

/-- C7 (amended): `Schema.decode(TradeData)` succeeds iff the symbol is
non-empty, price and volume are non-negative AND finite, both timestamps are
positive integers, and latency is non-negative AND FINITE (the claim omitted
the finiteness requirement on latency — see the counterexample); on failure
no record is produced. -/
theorem c7_decode (r : TradeRaw) :
    (decodeTradeData r).isSome = true ↔
      (r.symbol ≠ "" ∧
        jsNonNeg r.price = true ∧ jsFinite r.price = true ∧
        jsNonNeg r.volume = true ∧ jsFinite r.volume = true ∧
        jsPositive r.timestamp = true ∧ jsIsInteger r.timestamp = true ∧
        jsPositive r.receivedAt = true ∧ jsIsInteger r.receivedAt = true ∧
        jsNonNeg r.latency = true ∧ jsFinite r.latency = true) := by
  unfold decodeTradeData
  split
  next h => exact iff_of_true rfl (by simpa using h)
  next h => exact iff_of_false (by simp) (by simpa using h)

/-- C7 counterexample: a payload with `latency = Infinity` satisfies every
condition the claim lists (price/volume non-negative finite, positive integer
timestamps, latency ≥ 0 — `Infinity >= 0` in JS — and a non-empty symbol) yet
construction fails: the latency schema also requires finiteness. -/
theorem c7_counterexample :
    (infLatencyTrade.symbol ≠ "" ∧
      jsNonNeg infLatencyTrade.price = true ∧ jsFinite infLatencyTrade.price = true ∧
      jsNonNeg infLatencyTrade.volume = true ∧ jsFinite infLatencyTrade.volume = true ∧
      jsPositive infLatencyTrade.timestamp = true ∧
      jsIsInteger infLatencyTrade.timestamp = true ∧
      jsPositive infLatencyTrade.receivedAt = true ∧
      jsIsInteger infLatencyTrade.receivedAt = true ∧
      jsNonNeg infLatencyTrade.latency = true) ∧
    decodeTradeData infLatencyTrade = none := by
  norm_num [infLatencyTrade, decodeTradeData, jsNonNeg, jsFinite, jsPositive, jsIsInteger]
  decide


/- ================================================================
   C2 — SignalAggregator
   ================================================================ -/

theorem pairwise_ts_le_getLast :
    ∀ (l : List Signal) (h : l ≠ []),
      l.Pairwise (fun a b => a.ts ≤ b.ts) → ∀ x ∈ l, x.ts ≤ (l.getLast h).ts := by
  intro l
  induction l with
  | nil => intro h; exact absurd rfl h
  | cons a rest ih =>
    intro h hp x hx
    rcases List.mem_cons.mp hx with rfl | hx
    · cases rest with
      | nil => simp [List.getLast]
      | cons b bs =>
        rw [List.getLast_cons (by simp)]
        exact (List.pairwise_cons.mp hp).1 _ (List.getLast_mem (by simp))
    · have hrest : rest ≠ [] := by
        intro hnil
        subst hnil
        simp at hx
      rw [List.getLast_cons hrest]
      exact ih hrest (List.pairwise_cons.mp hp).2 x hx

theorem latestTimestamp_spec (now : ℚ) (signals : List Signal) (h : signals ≠ []) :
    (∃ s ∈ signals, latestTimestamp now signals = s.ts) ∧
    ∀ x ∈ signals, x.ts ≤ latestTimestamp now signals := by
  have hperm := List.mergeSort_perm signals (fun a b => a.ts ≤ b.ts)
  have hne : signals.mergeSort (fun a b => a.ts ≤ b.ts) ≠ [] := by
    intro hnil
    apply h
    have := @List.length_mergeSort _ (fun (a b : Signal) => decide (a.ts ≤ b.ts)) signals
    rw [hnil] at this
    exact List.length_eq_zero.mp this.symm
  have hsorted := @List.sorted_mergeSort _
    (fun (a b : Signal) => decide (a.ts ≤ b.ts))
    (fun a b c hab hbc => by
      simp only [decide_eq_true_eq] at *
      exact le_trans hab hbc)
    (fun a b => by
      simpa using le_total a.ts b.ts)
    signals
  have hp : (signals.mergeSort (fun a b => a.ts ≤ b.ts)).Pairwise
      (fun a b => a.ts ≤ b.ts) :=
    hsorted.imp (by intro a b hab; simpa using hab)
  have hlt : latestTimestamp now signals =
      ((signals.mergeSort (fun a b => a.ts ≤ b.ts)).getLast hne).ts := by
    unfold latestTimestamp
    rw [List.getLast?_eq_getLast _ hne]
  constructor
  · exact ⟨_, hperm.mem_iff.mp (List.getLast_mem hne), hlt⟩
  · intro x hx
    rw [hlt]
    exact pairwise_ts_le_getLast _ hne hp x (hperm.mem_iff.mpr hx)

theorem aggScores_foldl (l : List Signal) (a : ℚ × ℚ × ℕ × List String) :
    (l.foldl
      (fun acc s =>
        match s with
        | .buy strength _ reason =>
            (acc.1 + strength, acc.2.1, acc.2.2.1, acc.2.2.2 ++ [reason])
        | .sell strength _ reason =>
            (acc.1, acc.2.1 + strength, acc.2.2.1, acc.2.2.2 ++ [reason])
        | .hold _ => (acc.1, acc.2.1, acc.2.2.1 + 1, acc.2.2.2)) a).1 =
        a.1 + (l.map buyStrengthOf).sum ∧
    (l.foldl
      (fun acc s =>
        match s with
        | .buy strength _ reason =>
            (acc.1 + strength, acc.2.1, acc.2.2.1, acc.2.2.2 ++ [reason])
        | .sell strength _ reason =>
            (acc.1, acc.2.1 + strength, acc.2.2.1, acc.2.2.2 ++ [reason])
        | .hold _ => (acc.1, acc.2.1, acc.2.2.1 + 1, acc.2.2.2)) a).2.1 =
        a.2.1 + (l.map sellStrengthOf).sum := by
  induction l generalizing a with
  | nil => simp
  | cons s rest ih =>
    cases s <;>
      simp only [List.foldl_cons, List.map_cons, List.sum_cons, ih,
        buyStrengthOf, sellStrengthOf] <;>
      constructor <;> ring

theorem buyScore_eq_sum (signals : List Signal) :
    buyScore signals = (signals.map buyStrengthOf).sum := by
  unfold buyScore aggScores
  rw [(aggScores_foldl signals (0, 0, 0, [])).1]
  simp

theorem sellScore_eq_sum (signals : List Signal) :
    sellScore signals = (signals.map sellStrengthOf).sum := by
  unfold sellScore aggScores
  rw [(aggScores_foldl signals (0, 0, 0, [])).2]
  simp

/-- C2: `aggregate` returns Hold on an empty batch; `buyScore`/`sellScore`
are the sums of Buy/Sell strengths (Hold contributing 0); the timestamp
carried by the consensus is the latest input timestamp; and on a non-empty
batch the result is Buy with strength `min(1, buyScore/n)` when
`buyScore > sellScore` and `buyScore > 0.3·n`, symmetrically Sell, and
otherwise Hold at the latest input timestamp. -/
theorem c2_aggregate (now : ℚ) (signals : List Signal) :
    (signals = [] → aggregate now signals = .hold now) ∧
    (buyScore signals = (signals.map buyStrengthOf).sum ∧
      sellScore signals = (signals.map sellStrengthOf).sum) ∧
    (signals ≠ [] → ∃ s ∈ signals, latestTimestamp now signals = s.ts) ∧
    (∀ x ∈ signals, x.ts ≤ latestTimestamp now signals) ∧
    (signals ≠ [] →
      (buyScore signals > sellScore signals ∧
          buyScore signals > (signals.length : ℚ) * (3 / 10) →
        ∃ r, aggregate now signals =
          .buy (Min.min 1 (buyScore signals / (signals.length : ℚ)))
            (latestTimestamp now signals) r) ∧
      (sellScore signals > buyScore signals ∧
          sellScore signals > (signals.length : ℚ) * (3 / 10) →
        ∃ r, aggregate now signals =
          .sell (Min.min 1 (sellScore signals / (signals.length : ℚ)))
            (latestTimestamp now signals) r) ∧
      (¬ (buyScore signals > sellScore signals ∧
            buyScore signals > (signals.length : ℚ) * (3 / 10)) →
        ¬ (sellScore signals > buyScore signals ∧
            sellScore signals > (signals.length : ℚ) * (3 / 10)) →
        aggregate now signals = .hold (latestTimestamp now signals))) := by
  refine ⟨?_, ⟨buyScore_eq_sum signals, sellScore_eq_sum signals⟩, ?_, ?_, ?_⟩
  · intro h
    subst h
    rfl
  · intro h
    exact (latestTimestamp_spec now signals h).1
  · intro x hx
    have h : signals ≠ [] := by
      intro hnil
      subst hnil
      simp at hx
    exact (latestTimestamp_spec now signals h).2 x hx
  · intro h
    have hlen : ¬ signals.length = 0 := by simpa [List.length_eq_zero] using h
    unfold buyScore sellScore
    refine ⟨?_, ?_, ?_⟩
    · intro hc
      exact ⟨_, by simp only [aggregate]; rw [if_neg hlen, if_pos hc]⟩
    · intro hc
      have hnot1 : ¬ ((aggScores signals).1 > (aggScores signals).2.1 ∧
          (aggScores signals).1 > (signals.length : ℚ) * (3 / 10)) := by
        intro hb
        exact absurd hc.1 (not_lt_of_gt hb.1)
      exact ⟨_, by simp only [aggregate]; rw [if_neg hlen, if_neg hnot1, if_pos hc]⟩
    · intro h1 h2
      simp only [aggregate]
      rw [if_neg hlen, if_neg h1, if_neg h2]

/-- C2 witness: a singleton Buy batch of strength 1: buyScore 1 > sellScore 0
and 1 > 0.3, so the consensus is the Buy branch with the batch's timestamp. -/
theorem c2_witness :
    ∃ r, aggregate 0 [Signal.buy 1 5 "r"] =
      .buy (Min.min 1 (buyScore [Signal.buy 1 5 "r"] / ((List.length [Signal.buy 1 5 "r"] : ℕ) : ℚ)))
        (latestTimestamp 0 [Signal.buy 1 5 "r"]) r := by
  refine ((c2_aggregate 0 [Signal.buy 1 5 "r"]).2.2.2.2 (by simp)).1 ?_
  constructor
  · norm_num [buyScore, sellScore, aggScores]
  · norm_num [buyScore, aggScores]


/- ================================================================
   C3 / C4 — indicator warm-up and EMA window
   ================================================================ -/

theorem mapAccumEmit_cons_length {σ τ ω : Type} (f : σ → τ → σ × Option ω)
    (s : σ) (t : τ) (ts : List τ) :
    (mapAccumEmit f s (t :: ts)).length =
      (if (f s t).2.isSome then 1 else 0) + (mapAccumEmit f (f s t).1 ts).length := by
  rcases hf : f s t with ⟨s', w⟩
  cases w <;> simp [mapAccumEmit, hf, Nat.add_comm]

theorem maStep_fst_prices (cfg : MAConfig) (s : MAState) (t : TradeData) :
    (maStep cfg s t).1.prices = jsSliceLast cfg.period (s.prices ++ [t.price]) := by
  simp only [maStep]
  split <;> rfl

theorem maStep_isSome (cfg : MAConfig) (s : MAState) (t : TradeData)
    (hP : 1 ≤ cfg.period) :
    (maStep cfg s t).2.isSome = true ↔ cfg.period ≤ s.prices.length + 1 := by
  have hlen : (jsSliceLast cfg.period (s.prices ++ [t.price])).length =
      Min.min cfg.period (s.prices.length + 1) := by
    rw [length_jsSliceLast _ _ hP, List.length_append, List.length_singleton]
  simp only [maStep]
  split
  next hcond =>
    rw [hlen] at hcond
    exact iff_of_true (by simp) (by omega)
  next hcond =>
    rw [hlen] at hcond
    exact iff_of_false (by simp) (by omega)

theorem ma_count_general (cfg : MAConfig) (hP : 1 ≤ cfg.period) :
    ∀ (ms : List TradeData) (s : MAState), s.prices.length ≤ cfg.period →
      (mapAccumEmit (maStep cfg) s ms).length =
        ms.length - (cfg.period - 1 - s.prices.length) := by
  intro ms
  induction ms with
  | nil => intro s hs; simp [mapAccumEmit]
  | cons t ts ih =>
    intro s hs
    rw [mapAccumEmit_cons_length]
    have hlen' : (maStep cfg s t).1.prices.length =
        Min.min (s.prices.length + 1) cfg.period := by
      rw [maStep_fst_prices, length_jsSliceLast _ _ hP, List.length_append,
        List.length_singleton, Nat.min_comm]
    rw [ih (maStep cfg s t).1 (by rw [hlen']; omega), hlen']
    by_cases hemit : cfg.period ≤ s.prices.length + 1
    · rw [if_pos ((maStep_isSome cfg s t hP).mpr hemit)]
      have hmin : Min.min (s.prices.length + 1) cfg.period = cfg.period :=
        Nat.min_eq_right hemit
      rw [hmin]
      simp only [List.length_cons]
      omega
    · rw [if_neg (by
        intro hsome
        exact hemit ((maStep_isSome cfg s t hP).mp hsome))]
      have hmin : Min.min (s.prices.length + 1) cfg.period = s.prices.length + 1 :=
        Nat.min_eq_left (by omega)
      rw [hmin]
      simp only [List.length_cons]
      omega

theorem maProcess_length (cfg : MAConfig) (trades : List TradeData)
    (hP : 1 ≤ cfg.period) :
    (maProcess cfg trades).length =
      (trades.filter (fun t => t.symbol == cfg.symbol)).length - (cfg.period - 1) := by
  unfold maProcess
  rw [ma_count_general cfg hP _ ⟨[], 0⟩ (by simp)]
  simp

theorem scanState_append {σ τ ω : Type} (f : σ → τ → σ × Option ω) (s : σ)
    (l : List τ) (x : τ) :
    scanState f s (l ++ [x]) = (f (scanState f s l) x).1 := by
  unfold scanState
  rw [List.foldl_append]
  rfl

theorem ma_scanState_prices (cfg : MAConfig) (hP : 1 ≤ cfg.period)
    (ms : List TradeData) :
    (scanState (maStep cfg) ⟨[], 0⟩ ms).prices =
      jsSliceLast cfg.period (ms.map (fun t => t.price)) := by
  induction ms using List.reverseRecOn with
  | nil => simp [scanState, jsSliceLast_nil]
  | append_singleton l x ih =>
    rw [scanState_append, maStep_fst_prices, ih, jsSliceLast_idem_concat _ _ _ hP]
    simp


theorem rsiStep_empty_prices (cfg : RSIConfig) (s : RSIState) (t : TradeData)
    (h : s.prices = []) :
    rsiStep cfg s t = ({ s with prices := s.prices ++ [t.price] }, none) := by
  simp [rsiStep, h]

theorem rsiStep_char (cfg : RSIConfig) (s : RSIState) (t : TradeData)
    (hP : 1 ≤ cfg.period) (h : s.prices ≠ []) :
    (rsiStep cfg s t).1.gains.length = Min.min (s.gains.length + 1) cfg.period ∧
    (rsiStep cfg s t).1.prices ≠ [] ∧
    ((rsiStep cfg s t).2.isSome = true ↔ cfg.period ≤ s.gains.length + 1) := by
  have h0 : 0 < s.prices.length := List.length_pos.mpr h
  have hlen2 : ¬ (s.prices ++ [t.price]).length < 2 := by
    simp only [List.length_append, List.length_singleton]
    omega
  have hprices : ∀ (q : ℚ), jsSliceLast (cfg.period + 1) (s.prices ++ [q]) ≠ [] := by
    intro q
    apply List.ne_nil_of_length_pos
    rw [length_jsSliceLast _ _ (by omega), List.length_append, List.length_singleton]
    omega
  have hgains : ∀ (q : ℚ), (jsSliceLast cfg.period (s.gains ++ [q])).length =
      Min.min (s.gains.length + 1) cfg.period := by
    intro q
    rw [length_jsSliceLast _ _ hP, List.length_append, List.length_singleton,
      Nat.min_comm]
  simp only [rsiStep, if_neg hlen2]
  set change := (s.prices ++ [t.price]).getD ((s.prices ++ [t.price]).length - 1) 0 -
      (s.prices ++ [t.price]).getD ((s.prices ++ [t.price]).length - 2) 0 with hchange
  set g := (if (0 : ℚ) < change then change else 0) with hg
  by_cases hcond : cfg.period ≤ (jsSliceLast cfg.period (s.gains ++ [g])).length
  · rw [if_pos hcond]
    rw [hgains g] at hcond
    exact ⟨hgains g, hprices _, iff_of_true (by simp) (by omega)⟩
  · rw [if_neg hcond]
    rw [hgains g] at hcond
    exact ⟨hgains g, hprices _, iff_of_false (by simp) (by omega)⟩

theorem rsi_count_general (cfg : RSIConfig) (hP : 1 ≤ cfg.period) :
    ∀ (ms : List TradeData) (s : RSIState), s.prices ≠ [] →
      s.gains.length ≤ cfg.period →
      (mapAccumEmit (rsiStep cfg) s ms).length =
        ms.length - (cfg.period - 1 - s.gains.length) := by
  intro ms
  induction ms with
  | nil => intro s hpr hs; simp [mapAccumEmit]
  | cons t ts ih =>
    intro s hpr hs
    obtain ⟨hglen, hpr', hsome⟩ := rsiStep_char cfg s t hP hpr
    rw [mapAccumEmit_cons_length, ih (rsiStep cfg s t).1 hpr' (by rw [hglen]; omega),
      hglen]
    by_cases hemit : cfg.period ≤ s.gains.length + 1
    · rw [if_pos (hsome.mpr hemit), Nat.min_eq_right hemit]
      simp only [List.length_cons]
      omega
    · rw [if_neg (fun hx => hemit (hsome.mp hx)), Nat.min_eq_left (by omega)]
      simp only [List.length_cons]
      omega

theorem rsiProcess_length (cfg : RSIConfig) (trades : List TradeData)
    (hP : 1 ≤ cfg.period) :
    (rsiProcess cfg trades).length =
      (trades.filter (fun t => t.symbol == cfg.symbol)).length - cfg.period := by
  unfold rsiProcess
  cases hms : trades.filter (fun t => t.symbol == cfg.symbol) with
  | nil => simp [mapAccumEmit]
  | cons t ts =>
    rw [mapAccumEmit_cons_length,
      rsiStep_empty_prices cfg _ t rfl]
    simp only [Option.isSome_none, Bool.false_eq_true, if_false]
    rw [rsi_count_general cfg hP ts _ (by simp) (by simp [hP])]
    simp only [List.length_cons, List.length_nil]
    omega

/-- C3 (amended): for an indicator stream filtered to symbol S over n matching
trades — MovingAverage(P) emits exactly `max(0, n − (P−1))` states: zero until
P matching trades are seen, then exactly one per matching trade; RSI(P) emits
exactly `max(0, n − P)` states: its warm-up needs P price CHANGES, i.e. P+1
matching trades, before the first emission (one state per matching trade
thereafter) — not P trades as claimed (see the counterexample). -/
theorem c3_warmup :
    (∀ (cfg : MAConfig) (trades : List TradeData), 1 ≤ cfg.period →
      (maProcess cfg trades).length =
        (trades.filter (fun t => t.symbol == cfg.symbol)).length - (cfg.period - 1)) ∧
    (∀ (cfg : RSIConfig) (trades : List TradeData), 1 ≤ cfg.period →
      (rsiProcess cfg trades).length =
        (trades.filter (fun t => t.symbol == cfg.symbol)).length - cfg.period) :=
  ⟨fun cfg trades hP => maProcess_length cfg trades hP,
   fun cfg trades hP => rsiProcess_length cfg trades hP⟩

/-- C3 counterexample: RSI(period 2, symbol "A") fed exactly 2 matching trades
emits NO state, although the claim requires at least one state per matching
trade once at least `period` matching trades have been seen. -/
theorem c3_counterexample :
    (([tradeAt 1, tradeAt 2].filter (fun t => t.symbol == "A")).length = 2) ∧
    (rsiProcess ⟨"rsi", "A", 2, 30, 70⟩ [tradeAt 1, tradeAt 2]).length = 0 := by
  constructor
  · rfl
  · rfl

/-- C3 witness: with period 1 on one matching trade, the MA emits exactly one
state and the RSI emits none. -/
theorem c3_witness :
    (maProcess ⟨"sma", "A", 1, .simple⟩ [tradeAt 5]).length =
      (([tradeAt 5]).filter (fun t => t.symbol == "A")).length - 0 ∧
    (rsiProcess ⟨"rsi", "A", 1, 30, 70⟩ [tradeAt 5]).length =
      (([tradeAt 5]).filter (fun t => t.symbol == "A")).length - 1 :=
  ⟨c3_warmup.1 ⟨"sma", "A", 1, .simple⟩ [tradeAt 5] (by decide),
   c3_warmup.2 ⟨"rsi", "A", 1, 30, 70⟩ [tradeAt 5] (by decide)⟩


/-- C4 (amended): for the exponential MovingAverage (period P ≥ 1, symbol S),
once at least P matching trades have been seen, the state emitted at the LAST
matching trade carries the EMA recurrence `ema1 = p1`,
`ema(k) = p(k)·α + ema(k−1)·(1−α)`, `α = 2/(P+1)`, applied over the LAST
min(n, P) matching prices only (the retained ring), not over all n prices
seen so far (see the counterexample).  Quantifying over every trade prefix,
this determines every emitted value. -/
theorem c4_ema_window (cfg : MAConfig) (trades : List TradeData)
    (hexp : cfg.maType = .exponential) (hP : 1 ≤ cfg.period)
    (hlen : cfg.period ≤ (trades.filter (fun t => t.symbol == cfg.symbol)).length) :
    ∃ pre out, maProcess cfg trades = pre ++ [out] ∧
      out.value = calculateEMA
        (jsSliceLast cfg.period
          ((trades.filter (fun t => t.symbol == cfg.symbol)).map (fun t => t.price)))
        cfg.period := by
  set ms := trades.filter (fun t => t.symbol == cfg.symbol) with hms
  have hne : ms ≠ [] := by
    intro hnil
    rw [hnil] at hlen
    simp at hlen
    omega
  obtain ⟨init, lastT, hsplit⟩ := (List.eq_nil_or_concat ms).resolve_left hne
  rw [List.concat_eq_append] at hsplit
  unfold maProcess
  rw [← hms, hsplit, mapAccumEmit_append]
  set s := scanState (maStep cfg) ⟨[], 0⟩ init with hs
  have hsp : s.prices = jsSliceLast cfg.period (init.map (fun t => t.price)) :=
    ma_scanState_prices cfg hP init
  have hnew : jsSliceLast cfg.period (s.prices ++ [lastT.price]) =
      jsSliceLast cfg.period (ms.map (fun t => t.price)) := by
    rw [hsp, jsSliceLast_idem_concat _ _ _ hP, hsplit]
    simp
  have hcond : cfg.period ≤ (jsSliceLast cfg.period (s.prices ++ [lastT.price])).length := by
    rw [hnew, length_jsSliceLast _ _ hP, List.length_map]
    exact le_of_eq (Nat.min_eq_left hlen).symm
  have hma : maStep cfg s lastT =
      (⟨jsSliceLast cfg.period (s.prices ++ [lastT.price]),
        calculateEMA (jsSliceLast cfg.period (s.prices ++ [lastT.price])) cfg.period⟩,
       some ⟨calculateEMA (jsSliceLast cfg.period (s.prices ++ [lastT.price])) cfg.period,
         lastT.price⟩) := by
    simp only [maStep, hexp, if_pos hcond]
  have hstep : mapAccumEmit (maStep cfg) s [lastT] =
      [⟨calculateEMA (jsSliceLast cfg.period (s.prices ++ [lastT.price])) cfg.period,
        lastT.price⟩] := by
    simp [mapAccumEmit, hma]
  refine ⟨mapAccumEmit (maStep cfg) ⟨[], 0⟩ init,
    ⟨calculateEMA (jsSliceLast cfg.period (ms.map (fun t => t.price))) cfg.period,
      lastT.price⟩, ?_, by rw [← hsplit]⟩
  rw [hstep, hnew]

/-- C4 counterexample: EMA(period 2, symbol "A") on prices 1, 100, 1.  The
code recomputes the recurrence over the 2-price ring, so the third emission is
`calculateEMA [100, 1] 2 = 34`, while the recurrence over ALL three prices
gives `calculateEMA [1, 100, 1] 2 = 23`: the claim's "over all matching trade
prices seen so far" fails for n > P. -/
theorem c4_counterexample :
    maProcess ⟨"ema", "A", 2, .exponential⟩ [tradeAt 1, tradeAt 100, tradeAt 1] =
      [⟨67, 100⟩, ⟨34, 1⟩] ∧
    calculateEMA [1, 100, 1] 2 = 23 ∧ (34 : ℚ) ≠ 23 := by
  refine ⟨?_, by norm_num [calculateEMA], by norm_num⟩
  norm_num [maProcess, mapAccumEmit, maStep, calculateEMA, calculateSMA, jsSliceLast,
    tradeAt]

/-- C4 witness: the amended statement instantiated at period 1 on the single
matching trade of price 5. -/
theorem c4_witness :
    ∃ pre out, maProcess ⟨"ema", "A", 1, .exponential⟩ [tradeAt 5] = pre ++ [out] ∧
      out.value = calculateEMA
        (jsSliceLast 1
          ((([tradeAt 5]).filter (fun t => t.symbol == "A")).map (fun t => t.price)))
        1 :=
  c4_ema_window ⟨"ema", "A", 1, .exponential⟩ [tradeAt 5] rfl (by decide) (by decide)


/- ================================================================
   C5 — RSI on 15 increasing prices
   ================================================================ -/

set_option maxHeartbeats 2000000 in
/-- C5: RSI(14, oversold 30, overbought 70) fed 15 strictly increasing prices
for its symbol emits exactly one state, with value 100 (average loss 0), and
`signal` on that state is Sell with strength 1 and a reason containing
"overbought". -/
theorem c5_rsi_overbought :
    rsiProcess ⟨"rsi-14", "A", 14, 30, 70⟩ rsiTrades15 = [⟨100, 1, 0, 15, 30, 70⟩] ∧
    rsiSignal 0 ⟨100, 1, 0, 15, 30, 70⟩ =
      .sell 1 0 ("RSI overbought at " ++ fmtNum 100 ++ " (threshold: " ++
        fmtNum 70 ++ ")") ∧
    ∃ a b, ("RSI overbought at " ++ fmtNum 100 ++ " (threshold: " ++ fmtNum 70 ++ ")") =
      a ++ "overbought" ++ b := by
  refine ⟨?_, ?_, "RSI ",
    " at " ++ fmtNum 100 ++ " (threshold: " ++ fmtNum 70 ++ ")", ?_⟩
  · norm_num [rsiProcess, rsiTrades15, mapAccumEmit, rsiStep, jsSliceLast,
      calculateRSI, tradeAt]
  · norm_num [rsiSignal]
  · simp [← String.append_assoc]



/- ================================================================
   C8 — TradeBroker (modelled from spec §4.2)
   ================================================================ -/

theorem brokerStep_publish (s : BrokerState) (t : TradeData) :
    brokerStep s (.publish t) =
      if s.subs.all (fun p => p.2.queue.length < s.capacity) then
        some { s with
          published := s.published ++ [t]
          subs := s.subs.map (fun p => (p.1, { p.2 with queue := p.2.queue ++ [t] })) }
      else none := rfl

theorem brokerStep_subscribe (s : BrokerState) (id : ℕ) :
    brokerStep s (.subscribe id) =
      if s.subs.any (fun p => p.1 == id) then none
      else some { s with subs := s.subs ++ [(id, ⟨s.published.length, [], []⟩)] } := rfl

theorem brokerStep_consume (s : BrokerState) (id : ℕ) :
    brokerStep s (.consume id) =
      (consumeSub s.subs id).map (fun subs => { s with subs := subs }) := rfl

theorem brokerStep_unsubscribe (s : BrokerState) (id : ℕ) :
    brokerStep s (.unsubscribe id) =
      some { s with subs := s.subs.filter (fun p => p.1 ≠ id) } := rfl

theorem consumeSub_char :
    ∀ (l : List (ℕ × Subscriber)) (id : ℕ) (l' : List (ℕ × Subscriber)),
      consumeSub l id = some l' →
      ∀ p ∈ l', ∃ q ∈ l, q.2.subAt = p.2.subAt ∧
        q.2.taken ++ q.2.queue = p.2.taken ++ p.2.queue ∧
        p.2.queue.length ≤ q.2.queue.length := by
  intro l
  induction l with
  | nil => intro id l' hc; simp [consumeSub] at hc
  | cons hd rest ih =>
    intro id l' hc
    rcases hd with ⟨i, sub⟩
    by_cases hid : i = id
    · rw [consumeSub, if_pos hid] at hc
      cases hq : sub.queue with
      | nil => rw [hq] at hc; simp at hc
      | cons q qs =>
        rw [hq] at hc
        obtain rfl := Option.some.inj hc
        intro p hp
        rcases List.mem_cons.mp hp with rfl | hp
        · refine ⟨(i, sub), List.mem_cons_self _ _, rfl, ?_, ?_⟩
          · simp [hq, List.append_assoc]
          · simp [hq]
        · exact ⟨p, List.mem_cons_of_mem _ hp, rfl, rfl, le_refl _⟩
    · rw [consumeSub, if_neg hid] at hc
      rcases Option.map_eq_some'.mp hc with ⟨rest', hrest, rfl⟩
      intro p hp
      rcases List.mem_cons.mp hp with rfl | hp
      · exact ⟨(i, sub), List.mem_cons_self _ _, rfl, rfl, le_refl _⟩
      · obtain ⟨q, hqmem, hq⟩ := ih id rest' hrest p hp
        exact ⟨q, List.mem_cons_of_mem _ hqmem, hq⟩

theorem brokerStep_inv (s : BrokerState) (e : BrokerEvent) (s' : BrokerState)
    (hs : brokerInv s) (hstep : brokerStep s e = some s') :
    brokerInv s' ∧ s'.capacity = s.capacity := by
  cases e with
  | publish t =>
    rw [brokerStep_publish] at hstep
    split at hstep
    next hall =>
      obtain rfl := Option.some.inj hstep
      refine ⟨?_, rfl⟩
      intro p hp
      obtain ⟨q, hq, rfl⟩ := List.mem_map.mp hp
      obtain ⟨h1, h2, h3⟩ := hs q hq
      refine ⟨?_, ?_, ?_⟩
      · simp only [List.length_append, List.length_singleton]
        omega
      · simp only
        rw [← List.append_assoc, h2, List.drop_append_of_le_length h1]
      · have hlt := List.all_eq_true.mp hall q hq
        simp only [decide_eq_true_eq] at hlt
        simp only [List.length_append, List.length_singleton]
        omega
    next => simp at hstep
  | subscribe id =>
    rw [brokerStep_subscribe] at hstep
    split at hstep
    next => simp at hstep
    next hfresh =>
      obtain rfl := Option.some.inj hstep
      refine ⟨?_, rfl⟩
      intro p hp
      rcases List.mem_append.mp hp with hp | hp
      · exact hs p hp
      · rw [List.mem_singleton] at hp
        subst hp
        exact ⟨le_refl _, by simp [List.drop_length], by simp⟩
  | consume id =>
    rw [brokerStep_consume] at hstep
    rcases Option.map_eq_some'.mp hstep with ⟨subs', hsubs, rfl⟩
    refine ⟨?_, rfl⟩
    intro p hp
    obtain ⟨q, hqmem, hsub, hseq, hqlen⟩ := consumeSub_char s.subs id subs' hsubs p hp
    obtain ⟨h1, h2, h3⟩ := hs q hqmem
    refine ⟨?_, ?_, ?_⟩
    · show p.2.subAt ≤ s.published.length
      omega
    · show p.2.taken ++ p.2.queue = s.published.drop p.2.subAt
      rw [← hseq, ← hsub, h2]
    · show p.2.queue.length ≤ s.capacity
      omega
  | unsubscribe id =>
    rw [brokerStep_unsubscribe] at hstep
    obtain rfl := Option.some.inj hstep
    refine ⟨?_, rfl⟩
    intro p hp
    exact hs p (List.mem_filter.mp hp).1

theorem brokerRun_inv :
    ∀ (evs : List BrokerEvent) (s s' : BrokerState), brokerInv s →
      brokerRun s evs = some s' → brokerInv s' ∧ s'.capacity = s.capacity := by
  intro evs
  induction evs with
  | nil =>
    intro s s' hs hrun
    obtain rfl := Option.some.inj hrun
    exact ⟨hs, rfl⟩
  | cons e es ih =>
    intro s s' hs hrun
    unfold brokerRun at hrun
    cases hstep : brokerStep s e with
    | none =>
      rw [hstep] at hrun
      exact Option.noConfusion hrun
    | some s1 =>
      rw [hstep] at hrun
      replace hrun : brokerRun s1 es = some s' := hrun
      obtain ⟨hinv1, hcap1⟩ := brokerStep_inv s e s1 hs hstep
      obtain ⟨hinv, hcap⟩ := ih s1 s' hinv1 hrun
      exact ⟨hinv, hcap.trans hcap1⟩

/-- C8: in the broker model (spec §4.2 — atomic multicast with bounded
per-subscriber queues), along every event trace from a fresh broker, every
attached subscriber's received-so-far plus queued trades is exactly the suffix
of the global publish sequence from its subscription point (publish order
preserved, no silent drop) — in particular a subsequence of the global publish
sequence — and its queue never exceeds the configured capacity. -/
theorem c8_broker (cap : ℕ) (evs : List BrokerEvent) (s : BrokerState)
    (h : brokerRun (brokerInit cap) evs = some s) :
    ∀ p ∈ s.subs,
      p.2.taken ++ p.2.queue = s.published.drop p.2.subAt ∧
      (p.2.taken ++ p.2.queue).Sublist s.published ∧
      p.2.queue.length ≤ cap := by
  obtain ⟨hinv, hcap⟩ := brokerRun_inv evs (brokerInit cap) s
    (fun p hp => absurd hp (List.not_mem_nil p)) h
  intro p hp
  obtain ⟨h1, h2, h3⟩ := hinv p hp
  refine ⟨h2, ?_, ?_⟩
  · rw [h2]
    exact List.drop_sublist _ _
  · rw [hcap] at h3
    exact h3

/-- C8 witness: the trace subscribe 0, publish, consume 0 on a capacity-1
broker — the single subscriber received exactly the one trade published after
its subscription, in order, within capacity. -/
theorem c8_witness :
    ([tradeA] : List TradeData) ++ [] = List.drop 0 [tradeA] ∧
    (([tradeA] : List TradeData) ++ []).Sublist [tradeA] ∧
    List.length ([] : List TradeData) ≤ 1 := by
  have hrun : brokerRun (brokerInit 1)
      [.subscribe 0, .publish tradeA, .consume 0] =
      some ⟨[tradeA], [(0, ⟨0, [tradeA], []⟩)], 1⟩ := by rfl
  have h := c8_broker 1 [.subscribe 0, .publish tradeA, .consume 0]
    ⟨[tradeA], [(0, ⟨0, [tradeA], []⟩)], 1⟩ hrun (0, ⟨0, [tradeA], []⟩)
    (List.mem_singleton.mpr rfl)
  exact ⟨h.1, h.2.1, h.2.2⟩


end Stock
